import Mathlib

/-!
Shallow embedding of the Pool-Line-Detector detection pipeline
(`src/line_detector/line_finder.py` and `src/line_detector/main.py`).

The two source files duplicate the same helper functions verbatim
(`get_white_mask`, `get_black_mask`, `find_line_endpoints`,
`check_black_at_ends`); each helper is embedded once and shared by the
embeddings of the two entry points `find_lines` (line_finder.py) and
`LineDetector.detect` (main.py).

OpenCV primitives (`cv2.findContours`, `cv2.contourArea`,
`cv2.minAreaRect`, `cv2.boundingRect`, `cv2.convexHull`) are external
library calls, not code of this repository; they are modelled as an
abstract environment `CV` supplying their results, and theorems that
depend on their documented behaviour take that behaviour as an explicit
hypothesis.

Numeric conventions of the embedding:
* pixel channels are `ℕ`; coordinates are `ℤ`; the float quantities
  produced by OpenCV (areas, rotated-rectangle side lengths) are `ℚ`.
* `np.sqrt` comparisons in `find_line_endpoints` are embedded on squared
  distances: the loop only compares distances (`dist > max_dist` with
  `max_dist` starting at `0 = sqrt 0`), and real square root is strictly
  monotone on nonnegatives, so the control flow is identical.
* the normalized-direction walk of `check_black_at_ends` computes
  `int(p + (c / sqrt S) * t)`, Python `int` truncating toward zero.  This
  is embedded exactly over `ℤ` using `Nat.sqrt`: for the real value
  `v = p + B / sqrt S` (integers `p`, `B`, `0 < S`) we use
  `trunc v = if 0 ≤ ⌊v⌋ then ⌊v⌋ else ⌈v⌉`, `⌈v⌉ = -⌊-v⌋`,
  `⌊v⌋ = p + ⌊B * sqrt S / S⌋ = p + (⌊B * sqrt S⌋).fdiv S`, and
  `⌊B * sqrt S⌋` is `Nat.sqrt (B ^ 2 * S)` for `0 ≤ B` and the negated
  ceiling square root otherwise.
-/

/-- Pixel of the captured color image: three 8-bit channel intensities. -/
structure Pixel where
  r : ℕ
  g : ℕ
  b : ℕ
deriving DecidableEq

/-- Rectangular raster image, indexed `pix row column` like the numpy
arrays of the source. -/
structure Image where
  height : ℕ
  width : ℕ
  pix : ℕ → ℕ → Pixel

/-- Binary mask produced by the mask builders: a `0`/`255` value per
pixel together with the dimensions of the underlying array
(`mask.shape` in the source). -/
structure Mask where
  height : ℕ
  width : ℕ
  val : ℕ → ℕ → ℕ

/-- Threshold `WHITE_MIN` of both source files. -/
def WHITE_MIN : ℕ := 240

/-- Threshold `BLACK_MAX` of both source files. -/
def BLACK_MAX : ℕ := 40

/-- Constant `MIN_LINE_LENGTH` of both source files. -/
def MIN_LINE_LENGTH : ℚ := 30

/-- Constant `MIN_LINE_THICKNESS` of both source files. -/
def MIN_LINE_THICKNESS : ℚ := 2

/-- Constant `MAX_LINE_THICKNESS` of both source files. -/
def MAX_LINE_THICKNESS : ℚ := 15

/-- Embedding of `get_white_mask`: a pixel is `255` iff all three
channels are `≥ WHITE_MIN`, else `0`; the mask keeps the image's
dimensions (`(white_mask * 255).astype(np.uint8)`). -/
def getWhiteMask (img : Image) : Mask :=
  { height := img.height
    width := img.width
    val := fun y x =>
      if WHITE_MIN ≤ (img.pix y x).r ∧ WHITE_MIN ≤ (img.pix y x).g ∧
          WHITE_MIN ≤ (img.pix y x).b then 255 else 0 }

/-- Embedding of `get_black_mask`: a pixel is `255` iff all three
channels are `≤ BLACK_MAX`, else `0`. -/
def getBlackMask (img : Image) : Mask :=
  { height := img.height
    width := img.width
    val := fun y x =>
      if (img.pix y x).r ≤ BLACK_MAX ∧ (img.pix y x).g ≤ BLACK_MAX ∧
          (img.pix y x).b ≤ BLACK_MAX then 255 else 0 }

/-- Newton iteration for the integer square root of `n`, structurally
recursive on a fuel argument so the kernel can evaluate it (`Nat.sqrt`
uses well-founded recursion and does not reduce definitionally).  The
iteration agrees with `Nat.sqrt`; see `isqrt_eq_natSqrt` below. -/
def isqrtIter (n : ℕ) : ℕ → ℕ → ℕ
  | 0, guess => guess
  | fuel + 1, guess =>
      let next := (guess + n / guess) / 2
      if next < guess then isqrtIter n fuel next else guess

/-- Kernel-computable floor integer square root. -/
def isqrt (n : ℕ) : ℕ :=
  if n ≤ 1 then n else isqrtIter n n (n / 2)

/-- Ceiling integer square root: least `m` with `n ≤ m * m`. -/
def sqrtCeil (n : ℕ) : ℕ :=
  if isqrt n * isqrt n = n then isqrt n else isqrt n + 1

/-- Floor of `B * Real.sqrt S`, computed with integer arithmetic:
`⌊B * sqrt S⌋ = ⌊sqrt (B ^ 2 * S)⌋ = isqrt (B ^ 2 * S)` when
`0 ≤ B`, and `-⌈sqrt (B ^ 2 * S)⌉` otherwise. -/
def sqrtFloor (B : ℤ) (S : ℕ) : ℤ :=
  if 0 ≤ B then (isqrt (B.natAbs ^ 2 * S) : ℤ)
  else -(sqrtCeil (B.natAbs ^ 2 * S) : ℤ)

/-- Floor of the real value `p + B / Real.sqrt S` (for `0 < S`):
`⌊p + B / sqrt S⌋ = p + ⌊⌊B * sqrt S⌋ / S⌋`. -/
def stepFloor (p B : ℤ) (S : ℕ) : ℤ :=
  p + Int.fdiv (sqrtFloor B S) (S : ℤ)

/-- Truncation toward zero of `p + B / Real.sqrt S`, the semantics of
Python `int(...)` on the stepped coordinate in `has_black_ahead`:
truncation is the floor when the floor is nonnegative and the ceiling
(`⌈v⌉ = -⌊-v⌋`) otherwise. -/
def stepTrunc (p B : ℤ) (S : ℕ) : ℤ :=
  if 0 ≤ stepFloor p B S then stepFloor p B S else -(stepFloor (-p) (-B) S)

/-- Embedding of the inner helper `has_black_ahead` of
`check_black_at_ends`: walk integer distances `t ∈ [3, radius)` from
`(px, py)` along the direction `(cx, cy) / sqrt S`, succeeding as soon
as an in-bounds sample of the dark mask is set; out-of-bounds samples
are skipped. -/
def hasBlackAhead (mask : Mask) (px py cx cy : ℤ) (S radius : ℕ) : Bool :=
  (List.range' 3 (radius - 3)).any fun t =>
    let checkX := stepTrunc px (cx * (t : ℤ)) S
    let checkY := stepTrunc py (cy * (t : ℤ)) S
    decide (0 ≤ checkX) && decide (checkX < (mask.width : ℤ)) &&
      decide (0 ≤ checkY) && decide (checkY < (mask.height : ℤ)) &&
      decide (0 < mask.val checkY.toNat checkX.toNat)

/-- Embedding of `check_black_at_ends` (identical in both source files):
build the dark mask, return `true` for a zero direction
(`sqrt (dx² + dy²) == 0`), otherwise succeed iff walking outward from
`p1` along `-direction` or from `p2` along `+direction` finds dark
material. -/
def checkBlackAtEnds (img : Image) (p1 p2 direction : ℤ × ℤ)
    (radius : ℕ) : Bool :=
  let blackMask := getBlackMask img
  let S := (direction.1 * direction.1 + direction.2 * direction.2).toNat
  if S = 0 then true
  else
    hasBlackAhead blackMask p1.1 p1.2 (-direction.1) (-direction.2) S radius ||
      hasBlackAhead blackMask p2.1 p2.2 direction.1 direction.2 S radius

/-- Squared Euclidean distance between two integer points; the source
compares `np.sqrt` of this quantity, and square root is strictly
monotone, so all comparisons agree. -/
def sqDist (p q : ℤ × ℤ) : ℤ :=
  (p.1 - q.1) ^ 2 + (p.2 - q.2) ^ 2

/-- Inner loop of `find_line_endpoints`: for a fixed `pt1 = p`, scan the
remaining points, replacing the accumulator `(p1, p2, max_dist)`
whenever a strictly larger distance is found. -/
def pairLoopInner (p : ℤ × ℤ) :
    List (ℤ × ℤ) → (ℤ × ℤ) × (ℤ × ℤ) × ℤ → (ℤ × ℤ) × (ℤ × ℤ) × ℤ
  | [], acc => acc
  | q :: rest, acc =>
      pairLoopInner p rest
        (if acc.2.2 < sqDist p q then (p, q, sqDist p q) else acc)

/-- Outer loop of `find_line_endpoints`: `for i, pt1 in enumerate(pts):
for pt2 in pts[i+1:]`. -/
def pairLoop :
    List (ℤ × ℤ) → (ℤ × ℤ) × (ℤ × ℤ) × ℤ → (ℤ × ℤ) × (ℤ × ℤ) × ℤ
  | [], acc => acc
  | p :: rest, acc => pairLoop rest (pairLoopInner p rest acc)

/-- Embedding of `find_line_endpoints` (identical logic in both source
files), parameterized by the external `cv2.convexHull`: boundaries with
fewer than 2 points yield the default `((0,0),(0,0))`; with more than 4
points the pairwise search runs over the hull, otherwise over the raw
points; the running pair starts at `(points[0], points[-1])` with
`max_dist = 0`. -/
def findLineEndpoints (hull : List (ℤ × ℤ) → List (ℤ × ℤ))
    (points : List (ℤ × ℤ)) : (ℤ × ℤ) × (ℤ × ℤ) :=
  match points with
  | [] => ((0, 0), (0, 0))
  | [_] => ((0, 0), (0, 0))
  | p0 :: p1 :: rest =>
      let pts := p0 :: p1 :: rest
      let hullPoints := if 4 < pts.length then hull pts else pts
      let r := pairLoop hullPoints
        (p0, pts.getLast (List.cons_ne_nil p0 (p1 :: rest)), 0)
      (r.1, r.2.1)

/-- Output record of `find_lines` (the `DetectedLine` dataclass of
`line_finder.py`). -/
structure DetectedLine where
  x1 : ℤ
  y1 : ℤ
  x2 : ℤ
  y2 : ℤ
  length : ℚ
  thickness : ℚ
deriving DecidableEq

/-- Abstract environment for the OpenCV primitives used by the
pipeline.  `contours` stands for
`cv2.findContours(white_mask, RETR_EXTERNAL, CHAIN_APPROX_SIMPLE)`,
each contour being its list of integer points; the remaining fields
stand for `cv2.contourArea`, `cv2.minAreaRect` (its pair of side
lengths `rect[1]`), `cv2.boundingRect` (its `(w, h)`), and
`cv2.convexHull` (as the list of hull points). -/
structure CV where
  contours : List (List (ℤ × ℤ))
  area : List (ℤ × ℤ) → ℚ
  minAreaRect : List (ℤ × ℤ) → ℚ × ℚ
  boundingRect : List (ℤ × ℤ) → ℕ × ℕ
  hull : List (ℤ × ℤ) → List (ℤ × ℤ)

/-- Dimension computation shared by both pipelines: with at least 5
contour points use the rotated rectangle's sides, otherwise the
axis-aligned bounding box; result is `(thickness, length) =
(min side, max side)`. -/
def shapeDims (cv : CV) (c : List (ℤ × ℤ)) : ℚ × ℚ :=
  if 5 ≤ c.length then
    let rect := cv.minAreaRect c
    (min rect.1 rect.2, max rect.1 rect.2)
  else
    let wh := cv.boundingRect c
    (((min wh.1 wh.2 : ℕ) : ℚ), ((max wh.1 wh.2 : ℕ) : ℚ))

/-- Disjunction of the five rejection guards of the shape filter, as
they appear in `find_lines` and `LineDetector.detect`: area below 50,
thickness outside `[MIN_LINE_THICKNESS, MAX_LINE_THICKNESS]`, length
below `MIN_LINE_LENGTH`, or aspect ratio `length / max(thickness, 1)`
below 3. -/
def shapeRejects (area length th : ℚ) : Bool :=
  decide (area < 50) || decide (th < MIN_LINE_THICKNESS) ||
    decide (MAX_LINE_THICKNESS < th) || decide (length < MIN_LINE_LENGTH) ||
    decide (length / max th 1 < 3)

/-- Body of the `for contour in contours` loop of
`find_lines` (line_finder.py): each `continue` becomes `none`, the
final `valid_lines.append(DetectedLine(...))` becomes `some`. -/
def processContour (cv : CV) (img : Image) (c : List (ℤ × ℤ)) :
    Option DetectedLine :=
  if cv.area c < 50 then none
  else if (shapeDims cv c).1 < MIN_LINE_THICKNESS ∨
      MAX_LINE_THICKNESS < (shapeDims cv c).1 then none
  else if (shapeDims cv c).2 < MIN_LINE_LENGTH then none
  else if (shapeDims cv c).2 / max (shapeDims cv c).1 1 < 3 then none
  else if checkBlackAtEnds img (findLineEndpoints cv.hull c).1
      (findLineEndpoints cv.hull c).2
      ((findLineEndpoints cv.hull c).2.1 - (findLineEndpoints cv.hull c).1.1,
        (findLineEndpoints cv.hull c).2.2 - (findLineEndpoints cv.hull c).1.2)
      20 = false then none
  else
    some { x1 := (findLineEndpoints cv.hull c).1.1
           y1 := (findLineEndpoints cv.hull c).1.2
           x2 := (findLineEndpoints cv.hull c).2.1
           y2 := (findLineEndpoints cv.hull c).2.2
           length := (shapeDims cv c).2, thickness := (shapeDims cv c).1 }

/-- Embedding of `find_lines` (line_finder.py, lines 104-149). -/
def findLines (cv : CV) (img : Image) : List DetectedLine :=
  cv.contours.filterMap (processContour cv img)

/-- Body of the candidate loop of `LineDetector.detect` (main.py):
identical guards, but the surviving candidate is recorded as the tuple
`(p1[0], p1[1], p2[0], p2[1], length)`. -/
def detectProcessContour (cv : CV) (img : Image) (c : List (ℤ × ℤ)) :
    Option (ℤ × ℤ × ℤ × ℤ × ℚ) :=
  if cv.area c < 50 then none
  else if (shapeDims cv c).1 < MIN_LINE_THICKNESS ∨
      MAX_LINE_THICKNESS < (shapeDims cv c).1 then none
  else if (shapeDims cv c).2 < MIN_LINE_LENGTH then none
  else if (shapeDims cv c).2 / max (shapeDims cv c).1 1 < 3 then none
  else if checkBlackAtEnds img (findLineEndpoints cv.hull c).1
      (findLineEndpoints cv.hull c).2
      ((findLineEndpoints cv.hull c).2.1 - (findLineEndpoints cv.hull c).1.1,
        (findLineEndpoints cv.hull c).2.2 - (findLineEndpoints cv.hull c).1.2)
      20 = false then none
  else
    some ((findLineEndpoints cv.hull c).1.1, (findLineEndpoints cv.hull c).1.2,
      (findLineEndpoints cv.hull c).2.1, (findLineEndpoints cv.hull c).2.2,
      (shapeDims cv c).2)

/-- List `valid_lines` of `LineDetector.detect`. -/
def detectValidLines (cv : CV) (img : Image) : List (ℤ × ℤ × ℤ × ℤ × ℚ) :=
  cv.contours.filterMap (detectProcessContour cv img)

/-- Semantics of Python `max(iterable, key=...)` as a left fold over the
tail with the head as the running best: the running best is replaced
only on strict key increase, so the first element attaining the
maximal key wins. -/
def pyFold {α : Type} (key : α → ℚ) : List α → α → α
  | [], b => b
  | a :: l, b => pyFold key l (if key b < key a then a else b)

/-- Python `max(l, key=...)` on a possibly empty list. -/
def pyMaxBy {α : Type} (key : α → ℚ) : List α → Option α
  | [] => none
  | a :: l => some (pyFold key l a)

/-- Embedding of the tail of `LineDetector.detect` (main.py, lines
131-138): `None` when `valid_lines` is empty, otherwise the first four
components of `max(valid_lines, key=lambda l: l[4])`. -/
def detect (cv : CV) (img : Image) : Option (ℤ × ℤ × ℤ × ℤ) :=
  match pyMaxBy (fun t => t.2.2.2.2) (detectValidLines cv img) with
  | none => none
  | some best => some (best.1, best.2.1, best.2.2.1, best.2.2.2.1)

/-- Success of one end of the termination check, as the specification
states it: some integer distance `t ∈ [3, radius)` steps from `p` along
the normalized direction `c / sqrt (c.1² + c.2²)` to an in-bounds pixel
that is set in the dark mask. -/
def endSucceeds (img : Image) (p c : ℤ × ℤ) (radius : ℕ) : Prop :=
  ∃ t : ℕ, 3 ≤ t ∧ t < radius ∧
    (let S := (c.1 * c.1 + c.2 * c.2).toNat
     let X := stepTrunc p.1 (c.1 * (t : ℤ)) S
     let Y := stepTrunc p.2 (c.2 * (t : ℤ)) S
     0 ≤ X ∧ X < (img.width : ℤ) ∧ 0 ≤ Y ∧ Y < (img.height : ℤ) ∧
       0 < (getBlackMask img).val Y.toNat X.toNat)

/-- Integer pixel coordinates viewed in the Euclidean plane, for the
convex-hull reasoning about `find_line_endpoints`.  This is spec-side
geometry (it targets `ℝ`), not part of the executable embedding. -/
noncomputable def toE (p : ℤ × ℤ) : EuclideanSpace ℝ (Fin 2) :=
  (WithLp.equiv 2 (Fin 2 → ℝ)).symm ![(p.1 : ℝ), (p.2 : ℝ)]

/-- Concrete all-black 100 x 10 test image used by the witnesses. -/
def imgB : Image := ⟨10, 100, fun _ _ => ⟨0, 0, 0⟩⟩

/-- Concrete OpenCV environment used by the witnesses: one two-point
contour, abstract area `100` and axis-aligned bounding box `60 x 5`. -/
def cvW : CV :=
  { contours := [[((0 : ℤ), (0 : ℤ)), (50, 0)]]
    area := fun _ => 100
    minAreaRect := fun _ => (60, 5)
    boundingRect := fun _ => (60, 5)
    hull := fun l => l }

/-- Concrete detected line produced by `cvW` on `imgB`. -/
def lineW : DetectedLine := ⟨0, 0, 50, 0, 60, 5⟩

/-- OpenCV environment with no contours, for the empty-mask witness. -/
def cvE : CV :=
  { contours := []
    area := fun _ => 0
    minAreaRect := fun _ => (0, 0)
    boundingRect := fun _ => (0, 0)
    hull := fun l => l }

/-- OpenCV environment whose area is below the filter threshold. -/
def cvR : CV :=
  { contours := [[]]
    area := fun _ => 10
    minAreaRect := fun _ => (0, 0)
    boundingRect := fun _ => (0, 0)
    hull := fun l => l }

/-- Five collinear boundary points for the farthest-pair witness. -/
def pts5 : List (ℤ × ℤ) := [(0, 0), (1, 0), (2, 0), (3, 0), (4, 0)]

/-- Hull function returning the two extreme points of `pts5`. -/
def hull5 : List (ℤ × ℤ) → List (ℤ × ℤ) := fun _ => [(0, 0), (4, 0)]

/-!
Validation of the kernel-computable square root: `isqrt` is the floor
integer square root, hence agrees with `Nat.sqrt`.
-/

theorem isqrtIter_sq_le (n : ℕ) :
    ∀ fuel guess, guess ≤ fuel →
      isqrtIter n fuel guess * isqrtIter n fuel guess ≤ n := by
  intro fuel
  induction fuel with
  | zero =>
      intro guess hg
      have : guess = 0 := by omega
      subst this
      simp [isqrtIter]
  | succ fuel ih =>
      intro guess hg
      rw [isqrtIter]
      by_cases h : (guess + n / guess) / 2 < guess
      · rw [if_pos h]
        exact ih _ (by omega)
      · rw [if_neg h]
        have h1 : guess ≤ (guess + n / guess) / 2 := Nat.le_of_not_lt h
        have h2 : guess * 2 ≤ guess + n / guess :=
          (Nat.le_div_iff_mul_le (by omega)).1 h1
        have h3 : guess ≤ n / guess := by omega
        calc guess * guess ≤ n / guess * guess := Nat.mul_le_mul_right _ h3
          _ ≤ n := Nat.div_mul_le_self n guess

theorem newton_step_upper (n g : ℕ) (hg : 0 < g) :
    n < ((g + n / g) / 2 + 1) * ((g + n / g) / 2 + 1) := by
  have h1 : n < g * (n / g + 1) := by
    nlinarith [Nat.div_add_mod n g, Nat.mod_lt n hg]
  have h2 : 4 * (g * (n / g + 1)) ≤ (g + n / g + 1) * (g + n / g + 1) := by
    zify
    nlinarith [sq_nonneg ((g : ℤ) - (n / g + 1))]
  have h3 : g + n / g + 1 ≤ 2 * ((g + n / g) / 2) + 2 := by omega
  have h4 : (g + n / g + 1) * (g + n / g + 1) ≤
      (2 * ((g + n / g) / 2) + 2) * (2 * ((g + n / g) / 2) + 2) :=
    Nat.mul_le_mul h3 h3
  nlinarith

theorem isqrtIter_lt_succ_sq (n : ℕ) :
    ∀ fuel guess, guess ≤ fuel → n < (guess + 1) * (guess + 1) →
      n < (isqrtIter n fuel guess + 1) * (isqrtIter n fuel guess + 1) := by
  intro fuel
  induction fuel with
  | zero =>
      intro guess hg hn
      have : guess = 0 := by omega
      subst this
      simpa [isqrtIter] using hn
  | succ fuel ih =>
      intro guess hg hn
      rw [isqrtIter]
      by_cases h : (guess + n / guess) / 2 < guess
      · rw [if_pos h]
        exact ih _ (by omega)
          (newton_step_upper n guess (Nat.lt_of_le_of_lt (Nat.zero_le _) h))
      · rw [if_neg h]
        exact hn

theorem isqrt_sq_le (n : ℕ) : isqrt n * isqrt n ≤ n := by
  unfold isqrt
  split_ifs with h
  · interval_cases n <;> simp
  · exact isqrtIter_sq_le n n (n / 2) (by omega)

theorem lt_succ_isqrt_sq (n : ℕ) : n < (isqrt n + 1) * (isqrt n + 1) := by
  unfold isqrt
  split_ifs with h
  · interval_cases n <;> simp
  · refine isqrtIter_lt_succ_sq n n (n / 2) (by omega) ?_
    have hq : 1 ≤ n / 2 := by omega
    have hn : n ≤ 2 * (n / 2) + 1 := by omega
    nlinarith

theorem isqrt_eq_natSqrt (n : ℕ) : isqrt n = Nat.sqrt n :=
  Nat.le_antisymm (Nat.le_sqrt.2 (isqrt_sq_le n))
    (Nat.le_of_lt_succ (Nat.sqrt_lt.2 (lt_succ_isqrt_sq n)))

/-- C5: the bright mask has a pixel set (value `255`) iff all three of
that pixel's channel intensities are `≥ 240`, and the dark mask has a
pixel set iff all three are `≤ 40`; both masks carry the image's
dimensions, and every mask value is `255` or `0`.  Purity is intrinsic
to the embedding: `getWhiteMask`/`getBlackMask` are functions of the
image alone. -/
theorem C5_mask_builder_thresholds (img : Image) (y x : ℕ) :
    (getWhiteMask img).height = img.height ∧
    (getWhiteMask img).width = img.width ∧
    (getBlackMask img).height = img.height ∧
    (getBlackMask img).width = img.width ∧
    ((getWhiteMask img).val y x = 255 ↔
      240 ≤ (img.pix y x).r ∧ 240 ≤ (img.pix y x).g ∧
        240 ≤ (img.pix y x).b) ∧
    ((getWhiteMask img).val y x = 255 ∨ (getWhiteMask img).val y x = 0) ∧
    ((getBlackMask img).val y x = 255 ↔
      (img.pix y x).r ≤ 40 ∧ (img.pix y x).g ≤ 40 ∧
        (img.pix y x).b ≤ 40) ∧
    ((getBlackMask img).val y x = 255 ∨ (getBlackMask img).val y x = 0) := by
  unfold getWhiteMask getBlackMask WHITE_MIN BLACK_MAX
  refine ⟨rfl, rfl, rfl, rfl, ?_, ?_, ?_, ?_⟩ <;> dsimp only <;>
    split_ifs <;> simp_all

/-- C10: the bright mask and the dark mask are disjoint: at every pixel
at least one of the two masks is `0`, because no channel intensity can
be simultaneously `≥ 240` and `≤ 40`.  In particular the termination
validator, which reads the dark mask, never counts a bright-line pixel
as bounding dark material. -/
theorem C10_masks_disjoint (img : Image) (y x : ℕ) :
    (getWhiteMask img).val y x = 0 ∨ (getBlackMask img).val y x = 0 := by
  unfold getWhiteMask getBlackMask WHITE_MIN BLACK_MAX
  dsimp only
  split_ifs with h1 h2
  · omega
  · right; rfl
  · left; rfl
  · left; rfl

/-- C9: a boundary with fewer than 2 points makes `find_line_endpoints`
return the default pair `((0,0),(0,0))`; the embedded function is total,
so no fault propagates out of endpoint extraction. -/
theorem C9_degenerate_boundary_default
    (hull : List (ℤ × ℤ) → List (ℤ × ℤ)) (points : List (ℤ × ℤ))
    (h : points.length < 2) :
    findLineEndpoints hull points = ((0, 0), (0, 0)) := by
  cases points with
  | nil => rfl
  | cons p0 t =>
      cases t with
      | nil => rfl
      | cons p1 rest => simp at h; omega

/-- Witness for C9 at the concrete one-point boundary `[(3, 4)]`. -/
theorem C9_degenerate_boundary_default_witness :
    ([((3 : ℤ), (4 : ℤ))].length < 2) ∧
      findLineEndpoints (fun l => l) [((3 : ℤ), (4 : ℤ))] = ((0, 0), (0, 0)) :=
  ⟨by decide, C9_degenerate_boundary_default (fun l => l) _ (by decide)⟩

/-!
Semantics of Python `max(l, key=...)`: the fold keeps the first element
attaining the maximal key.
-/

theorem pyFold_key_le {α : Type} (key : α → ℚ) :
    ∀ (l : List α) (b : α), key b ≤ key (pyFold key l b) := by
  intro l
  induction l with
  | nil => intro b; simp [pyFold]
  | cons a t ih =>
      intro b
      rw [pyFold]
      by_cases h : key b < key a
      · rw [if_pos h]
        exact le_of_lt (lt_of_lt_of_le h (ih a))
      · rw [if_neg h]
        exact ih b

theorem pyFold_first_max {α : Type} (key : α → ℚ) :
    ∀ (l : List α) (b : α), ∃ l₁ l₂,
      b :: l = l₁ ++ pyFold key l b :: l₂ ∧
      (∀ a ∈ l₁, key a < key (pyFold key l b)) ∧
      (∀ a ∈ l₂, key a ≤ key (pyFold key l b)) := by
  intro l
  induction l with
  | nil => intro b; exact ⟨[], [], rfl, by simp, by simp⟩
  | cons a t ih =>
      intro b
      rw [pyFold]
      by_cases h : key b < key a
      · rw [if_pos h]
        obtain ⟨l₁, l₂, he, h₁, h₂⟩ := ih a
        refine ⟨b :: l₁, l₂, ?_, ?_, h₂⟩
        · rw [List.cons_append, ← he]
        · intro z hz
          rcases List.mem_cons.1 hz with hz | hz
          · subst hz
            exact lt_of_lt_of_le h (pyFold_key_le key t a)
          · exact h₁ z hz
      · rw [if_neg h]
        obtain ⟨l₁, l₂, he, h₁, h₂⟩ := ih b
        cases l₁ with
        | nil =>
            simp only [List.nil_append] at he
            have hb : b = pyFold key t b := (List.cons_eq_cons.1 he).1
            have ht : t = l₂ := (List.cons_eq_cons.1 he).2
            refine ⟨[], a :: l₂, ?_, by simp, ?_⟩
            · simp only [List.nil_append]
              rw [← hb, ← ht]
            · intro z hz
              rcases List.mem_cons.1 hz with hz | hz
              · subst hz
                rw [← hb]
                exact le_of_not_lt h
              · exact h₂ z hz
        | cons x l₁x =>
            rw [List.cons_append] at he
            have hbx : b = x := (List.cons_eq_cons.1 he).1
            have ht : t = l₁x ++ pyFold key t b :: l₂ :=
              (List.cons_eq_cons.1 he).2
            have hxmem : key x < key (pyFold key t b) :=
              h₁ x (List.mem_cons_self x l₁x)
            refine ⟨x :: a :: l₁x, l₂, ?_, ?_, h₂⟩
            · rw [List.cons_append, List.cons_append, ← ht, hbx]
            · intro z hz
              rcases List.mem_cons.1 hz with hz | hz
              · rw [hz]
                exact hxmem
              · rcases List.mem_cons.1 hz with hz | hz
                · rw [hz]
                  calc key a ≤ key b := le_of_not_lt h
                    _ = key x := congrArg key hbx
                    _ < key (pyFold key t b) := hxmem
                · exact h₁ z (List.mem_cons_of_mem x hz)

/-- C6: the selector of `LineDetector.detect` returns `None` exactly
when no candidate passed both the shape filter and the termination
validator; otherwise it returns the four coordinates of a candidate of
maximal length, the first-encountered one when several share the
maximal length.  (`find_lines` itself returns the surviving list, so
its empty list is the corresponding absent value.) -/
theorem C6_selector_longest_first (cv : CV) (img : Image) :
    (detect cv img = none ↔ detectValidLines cv img = []) ∧
    (∀ r, detect cv img = some r →
      ∃ v l₁ l₂, detectValidLines cv img = l₁ ++ v :: l₂ ∧
        r = (v.1, v.2.1, v.2.2.1, v.2.2.2.1) ∧
        (∀ a ∈ l₁, a.2.2.2.2 < v.2.2.2.2) ∧
        (∀ a ∈ l₂, a.2.2.2.2 ≤ v.2.2.2.2)) := by
  unfold detect
  rcases hL : detectValidLines cv img with _ | ⟨a, t⟩
  · simp [pyMaxBy]
  · constructor
    · simp [pyMaxBy]
    · intro r hr
      simp only [pyMaxBy, Option.some.injEq] at hr
      obtain ⟨l₁, l₂, he, h₁, h₂⟩ :=
        pyFold_first_max (fun v : ℤ × ℤ × ℤ × ℤ × ℚ => v.2.2.2.2) t a
      exact ⟨pyFold (fun v : ℤ × ℤ × ℤ × ℤ × ℚ => v.2.2.2.2) t a, l₁, l₂,
        he, hr.symm, h₁, h₂⟩

/-- Witness for C6 at the concrete environment `cvW`, `imgB`. -/
theorem C6_selector_longest_first_witness :
    ∃ v l₁ l₂, detectValidLines cvW imgB = l₁ ++ v :: l₂ ∧
      ((0 : ℤ), (0 : ℤ), (50 : ℤ), (0 : ℤ)) = (v.1, v.2.1, v.2.2.1, v.2.2.2.1) ∧
      (∀ a ∈ l₁, a.2.2.2.2 < v.2.2.2.2) ∧
      (∀ a ∈ l₂, a.2.2.2.2 ≤ v.2.2.2.2) :=
  (C6_selector_longest_first cvW imgB).2 (0, 0, 50, 0)
    (by with_unfolding_all decide)

/-!
Characterization of the per-contour loop body shared by the claims
about `find_lines` and `LineDetector.detect`.
-/

theorem processContour_eq_some (cv : CV) (img : Image) (c : List (ℤ × ℤ))
    (l : DetectedLine) (h : processContour cv img c = some l) :
    50 ≤ cv.area c ∧
    l.thickness = (shapeDims cv c).1 ∧ l.length = (shapeDims cv c).2 ∧
    2 ≤ l.thickness ∧ l.thickness ≤ 15 ∧ 30 ≤ l.length ∧
    3 ≤ l.length / max l.thickness 1 ∧
    (l.x1, l.y1) = (findLineEndpoints cv.hull c).1 ∧
    (l.x2, l.y2) = (findLineEndpoints cv.hull c).2 ∧
    checkBlackAtEnds img (l.x1, l.y1) (l.x2, l.y2)
      (l.x2 - l.x1, l.y2 - l.y1) 20 = true := by
  unfold processContour at h
  split_ifs at h with h1 h2 h3 h4 h5 <;> try exact Option.noConfusion h
  injection h with h
  subst h
  refine ⟨le_of_not_lt h1, rfl, rfl, ?_, ?_, le_of_not_lt h3,
    le_of_not_lt h4, rfl, rfl, ?_⟩
  · exact le_of_not_lt fun hlt => h2 (Or.inl hlt)
  · exact le_of_not_lt fun hlt => h2 (Or.inr hlt)
  · simpa using h5

theorem detectProcessContour_eq_map (cv : CV) (img : Image)
    (c : List (ℤ × ℤ)) :
    detectProcessContour cv img c = (processContour cv img c).map
      (fun l => (l.x1, l.y1, l.x2, l.y2, l.length)) := by
  unfold detectProcessContour processContour
  split_ifs <;> rfl

theorem detectValidLines_eq_map (cv : CV) (img : Image) :
    detectValidLines cv img = (findLines cv img).map
      (fun l => (l.x1, l.y1, l.x2, l.y2, l.length)) := by
  unfold detectValidLines findLines
  rw [List.map_filterMap]
  have : detectProcessContour cv img = fun c =>
      (processContour cv img c).map
        (fun l => (l.x1, l.y1, l.x2, l.y2, l.length)) :=
    funext (detectProcessContour_eq_map cv img)
  rw [this]

theorem pyFold_mem {α : Type} (key : α → ℚ) :
    ∀ (l : List α) (b : α), pyFold key l b ∈ b :: l := by
  intro l
  induction l with
  | nil => intro b; simp [pyFold]
  | cons a t ih =>
      intro b
      rw [pyFold]
      by_cases h : key b < key a
      · rw [if_pos h]
        rcases List.mem_cons.1 (ih a) with hm | hm
        · rw [hm]
          exact List.mem_cons_of_mem b (List.mem_cons_self a t)
        · exact List.mem_cons_of_mem b (List.mem_cons_of_mem a hm)
      · rw [if_neg h]
        rcases List.mem_cons.1 (ih b) with hm | hm
        · rw [hm]
          exact List.mem_cons_self b (a :: t)
        · exact List.mem_cons_of_mem b (List.mem_cons_of_mem a hm)

theorem detect_some_mem (cv : CV) (img : Image) (r : ℤ × ℤ × ℤ × ℤ)
    (h : detect cv img = some r) :
    ∃ v ∈ detectValidLines cv img,
      r = (v.1, v.2.1, v.2.2.1, v.2.2.2.1) := by
  unfold detect at h
  rcases hL : detectValidLines cv img with _ | ⟨a, t⟩
  · rw [hL] at h
    simp [pyMaxBy] at h
  · rw [hL] at h
    simp only [pyMaxBy, Option.some.injEq] at h
    exact ⟨pyFold (fun v : ℤ × ℤ × ℤ × ℤ × ℚ => v.2.2.2.2) t a,
      pyFold_mem _ t a, h.symm⟩

/-- C4: the shape filter accepts a candidate iff none of the five
rejection guards holds, with inclusive boundaries: area `≥ 50`,
thickness in `[2, 15]` (so exactly 2 and exactly 15 pass), length
`≥ 30`, and aspect ratio `length / max(thickness, 1) ≥ 3` (so exactly 3
passes); and whenever some guard holds, the candidate contributes
nothing to either pipeline's result list. -/
theorem C4_shape_filter_boundaries (cv : CV) (img : Image)
    (c : List (ℤ × ℤ)) :
    (shapeRejects (cv.area c) (shapeDims cv c).2 (shapeDims cv c).1 = false ↔
      50 ≤ cv.area c ∧ 2 ≤ (shapeDims cv c).1 ∧ (shapeDims cv c).1 ≤ 15 ∧
        30 ≤ (shapeDims cv c).2 ∧
        3 ≤ (shapeDims cv c).2 / max (shapeDims cv c).1 1) ∧
    (shapeRejects (cv.area c) (shapeDims cv c).2 (shapeDims cv c).1 = true →
      processContour cv img c = none ∧ detectProcessContour cv img c = none) := by
  constructor
  · simp only [shapeRejects, MIN_LINE_THICKNESS, MAX_LINE_THICKNESS,
      MIN_LINE_LENGTH, Bool.or_eq_false_iff, decide_eq_false_iff_not, not_lt]
    tauto
  · intro hr
    have hd : cv.area c < 50 ∨ (shapeDims cv c).1 < 2 ∨
        15 < (shapeDims cv c).1 ∨ (shapeDims cv c).2 < 30 ∨
        (shapeDims cv c).2 / max (shapeDims cv c).1 1 < 3 := by
      have hr2 := hr
      simp only [shapeRejects, MIN_LINE_THICKNESS, MAX_LINE_THICKNESS,
        MIN_LINE_LENGTH, Bool.or_eq_true, decide_eq_true_eq] at hr2
      tauto
    constructor
    · unfold processContour
      split_ifs with h1 h2 h3 h4 h5 <;> try rfl
      exfalso
      rcases hd with h | h | h | h | h
      · exact h1 h
      · exact h2 (Or.inl h)
      · exact h2 (Or.inr h)
      · exact h3 h
      · exact h4 h
    · unfold detectProcessContour
      split_ifs with h1 h2 h3 h4 h5 <;> try rfl
      exfalso
      rcases hd with h | h | h | h | h
      · exact h1 h
      · exact h2 (Or.inl h)
      · exact h2 (Or.inr h)
      · exact h3 h
      · exact h4 h

/-- Witness for C4: the area-10 contour of `cvR` is rejected and yields
no line in either pipeline. -/
theorem C4_shape_filter_boundaries_witness :
    processContour cvR imgB [] = none ∧
      detectProcessContour cvR imgB [] = none :=
  (C4_shape_filter_boundaries cvR imgB []).2 (by with_unfolding_all decide)

/-- C1: every `DetectedLine` in `find_lines`' result has thickness in
`[2, 15]`, length `≥ 30`, aspect ratio `length / max(thickness, 1)
≥ 3`, and passed the black-termination check at its endpoints with the
direction `p2 - p1`; and any result of `LineDetector.detect` is the
coordinate quadruple of such a line. -/
theorem C1_detected_line_invariant (cv : CV) (img : Image) :
    (∀ l ∈ findLines cv img,
      2 ≤ l.thickness ∧ l.thickness ≤ 15 ∧ 30 ≤ l.length ∧
        3 ≤ l.length / max l.thickness 1 ∧
        checkBlackAtEnds img (l.x1, l.y1) (l.x2, l.y2)
          (l.x2 - l.x1, l.y2 - l.y1) 20 = true) ∧
    (∀ r, detect cv img = some r →
      ∃ l ∈ findLines cv img, r = (l.x1, l.y1, l.x2, l.y2)) := by
  constructor
  · intro l hl
    obtain ⟨c, _, hc⟩ := List.mem_filterMap.1 hl
    obtain ⟨_, _, _, h4, h5, h6, h7, _, _, h10⟩ :=
      processContour_eq_some cv img c l hc
    exact ⟨h4, h5, h6, h7, h10⟩
  · intro r hr
    obtain ⟨v, hv, hrv⟩ := detect_some_mem cv img r hr
    rw [detectValidLines_eq_map cv img] at hv
    obtain ⟨l, hl, hlv⟩ := List.mem_map.1 hv
    refine ⟨l, hl, ?_⟩
    rw [hrv, ← hlv]

/-- Witness for C1: the concrete line found by `cvW` on `imgB`
satisfies every clause of the invariant. -/
theorem C1_detected_line_invariant_witness :
    2 ≤ lineW.thickness ∧ lineW.thickness ≤ 15 ∧ 30 ≤ lineW.length ∧
      3 ≤ lineW.length / max lineW.thickness 1 ∧
      checkBlackAtEnds imgB (lineW.x1, lineW.y1) (lineW.x2, lineW.y2)
        (lineW.x2 - lineW.x1, lineW.y2 - lineW.y1) 20 = true :=
  (C1_detected_line_invariant cvW imgB).1 lineW (by with_unfolding_all decide)

/-- C8: when the bright mask is empty (no pixel reaches the white
threshold), the pipelines return the not-found results.  The hypotheses
on `cv` encode the `cv2.findContours` contract for the bright mask:
every reported contour is nonempty and consists of bright-mask pixels,
so an empty mask forces an empty contour list. -/
theorem C8_no_bright_pixels_not_found (cv : CV) (img : Image)
    (hne : ∀ c ∈ cv.contours, c ≠ [])
    (hwhite : ∀ c ∈ cv.contours, ∀ p ∈ c,
      (getWhiteMask img).val p.2.toNat p.1.toNat = 255)
    (hempty : ∀ y x, (getWhiteMask img).val y x ≠ 255) :
    findLines cv img = [] ∧ detect cv img = none := by
  have hc : cv.contours = [] := by
    rcases hcs : cv.contours with _ | ⟨c, cs⟩
    · rfl
    · exfalso
      have hcmem : c ∈ cv.contours := by
        rw [hcs]
        exact List.mem_cons_self c cs
      rcases c with _ | ⟨p, ps⟩
      · exact hne _ hcmem rfl
      · exact hempty _ _ (hwhite _ hcmem p (List.mem_cons_self p ps))
  constructor
  · unfold findLines
    rw [hc]
    rfl
  · unfold detect detectValidLines
    rw [hc]
    rfl

/-- Witness for C8 at the all-black image and the empty contour list. -/
theorem C8_no_bright_pixels_not_found_witness :
    findLines cvE imgB = [] ∧ detect cvE imgB = none :=
  C8_no_bright_pixels_not_found cvE imgB (by simp [cvE]) (by simp [cvE])
    (by intro y x; simp [getWhiteMask, imgB, WHITE_MIN])

theorem pyFold_map {α β : Type} (f : α → β) (keyB : β → ℚ) (keyA : α → ℚ)
    (hk : ∀ a, keyB (f a) = keyA a) :
    ∀ (l : List α) (b : α),
      pyFold keyB (l.map f) (f b) = f (pyFold keyA l b) := by
  intro l
  induction l with
  | nil => intro b; rfl
  | cons a t ih =>
      intro b
      rw [List.map_cons, pyFold, pyFold, hk, hk]
      by_cases h : keyA b < keyA a
      · rw [if_pos h, if_pos h]
        exact ih a
      · rw [if_neg h, if_neg h]
        exact ih b

/-- C7: the two duplicated pipelines agree: `LineDetector.detect`
returns `None` exactly when `find_lines` returns the empty list, and
otherwise returns the endpoint coordinates of the first maximum-length
`DetectedLine` of `find_lines`' result. -/
theorem C7_pipelines_equivalent (cv : CV) (img : Image) :
    (detect cv img = none ↔ findLines cv img = []) ∧
    (∀ r, detect cv img = some r →
      ∃ l l₁ l₂, findLines cv img = l₁ ++ l :: l₂ ∧
        r = (l.x1, l.y1, l.x2, l.y2) ∧
        (∀ a ∈ l₁, a.length < l.length) ∧
        (∀ a ∈ l₂, a.length ≤ l.length)) := by
  have hmap := detectValidLines_eq_map cv img
  unfold detect
  rcases hF : findLines cv img with _ | ⟨a, t⟩
  · rw [hF] at hmap
    rw [hmap]
    simp [pyMaxBy]
  · rw [hF] at hmap
    rw [hmap, List.map_cons]
    constructor
    · simp [pyMaxBy]
    · intro r hr
      simp only [pyMaxBy, Option.some.injEq] at hr
      rw [pyFold_map (fun l : DetectedLine => (l.x1, l.y1, l.x2, l.y2, l.length))
        (fun v : ℤ × ℤ × ℤ × ℤ × ℚ => v.2.2.2.2)
        (fun l : DetectedLine => l.length) (fun _ => rfl) t a] at hr
      obtain ⟨l₁, l₂, he, h₁, h₂⟩ :=
        pyFold_first_max (fun l : DetectedLine => l.length) t a
      exact ⟨pyFold (fun l : DetectedLine => l.length) t a, l₁, l₂, he,
        hr.symm, h₁, h₂⟩

/-- Witness for C7 at the concrete environment `cvW`, `imgB`. -/
theorem C7_pipelines_equivalent_witness :
    ∃ l l₁ l₂, findLines cvW imgB = l₁ ++ l :: l₂ ∧
      ((0 : ℤ), (0 : ℤ), (50 : ℤ), (0 : ℤ)) = (l.x1, l.y1, l.x2, l.y2) ∧
      (∀ a ∈ l₁, a.length < l.length) ∧
      (∀ a ∈ l₂, a.length ≤ l.length) :=
  (C7_pipelines_equivalent cvW imgB).2 (0, 0, 50, 0)
    (by with_unfolding_all decide)

theorem hasBlackAhead_eq_true_iff (mask : Mask) (px py cx cy : ℤ)
    (S radius : ℕ) :
    hasBlackAhead mask px py cx cy S radius = true ↔
      ∃ t : ℕ, 3 ≤ t ∧ t < radius ∧
        (0 ≤ stepTrunc px (cx * t) S ∧
          stepTrunc px (cx * t) S < (mask.width : ℤ) ∧
          0 ≤ stepTrunc py (cy * t) S ∧
          stepTrunc py (cy * t) S < (mask.height : ℤ) ∧
          0 < mask.val (stepTrunc py (cy * t) S).toNat
            (stepTrunc px (cx * t) S).toNat) := by
  unfold hasBlackAhead
  rw [List.any_eq_true]
  constructor
  · rintro ⟨t, htm, hb⟩
    have htr := List.mem_range'_1.1 htm
    simp only [Bool.and_eq_true, decide_eq_true_eq] at hb
    exact ⟨t, htr.1, by omega, hb.1.1.1.1, hb.1.1.1.2, hb.1.1.2, hb.1.2, hb.2⟩
  · rintro ⟨t, ht3, htr, h1, h2, h3, h4, h5⟩
    refine ⟨t, List.mem_range'_1.2 (by omega), ?_⟩
    simp only [Bool.and_eq_true, decide_eq_true_eq]
    exact ⟨⟨⟨⟨h1, h2⟩, h3⟩, h4⟩, h5⟩

theorem endSucceeds_iff_hasBlackAhead (img : Image) (p c : ℤ × ℤ)
    (radius : ℕ) :
    endSucceeds img p c radius ↔
      hasBlackAhead (getBlackMask img) p.1 p.2 c.1 c.2
        ((c.1 * c.1 + c.2 * c.2).toNat) radius = true := by
  rw [hasBlackAhead_eq_true_iff]
  exact Iff.rfl

/-- C2: with `d = p2 - p1`, `check_black_at_ends` returns `true`
outright when `d` is the zero vector; otherwise it returns `true` iff
at least one of the two ends succeeds, where an end succeeds exactly
when some integer distance `t` with `3 ≤ t < 20` steps from that
endpoint along the normalized outward direction (`-d` from `p1`, `+d`
from `p2`) to an in-bounds pixel set in the dark mask — out-of-bounds
samples are skipped, never counted as failures. -/
theorem C2_termination_check_semantics (img : Image) (p1 p2 : ℤ × ℤ) :
    (p2.1 - p1.1 = 0 ∧ p2.2 - p1.2 = 0 →
      checkBlackAtEnds img p1 p2 (p2.1 - p1.1, p2.2 - p1.2) 20 = true) ∧
    (¬(p2.1 - p1.1 = 0 ∧ p2.2 - p1.2 = 0) →
      (checkBlackAtEnds img p1 p2 (p2.1 - p1.1, p2.2 - p1.2) 20 = true ↔
        endSucceeds img p1 (-(p2.1 - p1.1), -(p2.2 - p1.2)) 20 ∨
          endSucceeds img p2 (p2.1 - p1.1, p2.2 - p1.2) 20)) := by
  set dx := p2.1 - p1.1 with hdx
  set dy := p2.2 - p1.2 with hdy
  constructor
  · rintro ⟨h1, h2⟩
    unfold checkBlackAtEnds
    simp [h1, h2]
  · intro hne
    have hS : (dx * dx + dy * dy).toNat ≠ 0 := by
      intro h0
      have hle : dx * dx + dy * dy ≤ 0 := Int.toNat_eq_zero.1 h0
      have hxx := mul_self_nonneg dx
      have hyy := mul_self_nonneg dy
      exact hne ⟨mul_self_eq_zero.1 (by omega), mul_self_eq_zero.1 (by omega)⟩
    have e1 := endSucceeds_iff_hasBlackAhead img p1 (-dx, -dy) 20
    have e2 := endSucceeds_iff_hasBlackAhead img p2 (dx, dy) 20
    have hSeq : (-dx) * (-dx) + (-dy) * (-dy) = dx * dx + dy * dy := by ring
    rw [hSeq] at e1
    unfold checkBlackAtEnds
    rw [if_neg hS, Bool.or_eq_true, e1, e2]

/-- Witness for C2 at the all-black image with endpoints `(0,0)` and
`(50,0)`. -/
theorem C2_termination_check_semantics_witness :
    checkBlackAtEnds imgB (0, 0) (50, 0) (50 - 0, 0 - 0) 20 = true ↔
      endSucceeds imgB (0, 0) (-(50 - 0), -(0 - 0)) 20 ∨
        endSucceeds imgB (50, 0) (50 - 0, 0 - 0) 20 :=
  (C2_termination_check_semantics imgB (0, 0) (50, 0)).2 (by decide)

/-!
Loop invariants of the farthest-pair search, and the convex-hull
maximum principle it relies on.
-/

theorem sqDist_nonneg (p q : ℤ × ℤ) : 0 ≤ sqDist p q := by
  unfold sqDist
  positivity

theorem sqDist_comm (p q : ℤ × ℤ) : sqDist p q = sqDist q p := by
  unfold sqDist
  ring

theorem sqDist_self (p : ℤ × ℤ) : sqDist p p = 0 := by
  unfold sqDist
  ring

theorem pairLoopInner_snd_le (p : ℤ × ℤ) :
    ∀ (l : List (ℤ × ℤ)) (acc : (ℤ × ℤ) × (ℤ × ℤ) × ℤ),
      acc.2.2 ≤ (pairLoopInner p l acc).2.2 := by
  intro l
  induction l with
  | nil => intro acc; exact le_refl _
  | cons q t ih =>
      intro acc
      rw [pairLoopInner]
      by_cases h : acc.2.2 < sqDist p q
      · rw [if_pos h]
        exact le_trans h.le (ih (p, q, sqDist p q))
      · rw [if_neg h]
        exact ih acc

theorem pairLoopInner_bound (p : ℤ × ℤ) :
    ∀ (l : List (ℤ × ℤ)) (acc : (ℤ × ℤ) × (ℤ × ℤ) × ℤ), ∀ q ∈ l,
      sqDist p q ≤ (pairLoopInner p l acc).2.2 := by
  intro l
  induction l with
  | nil => intro acc q hq; exact absurd hq (List.not_mem_nil q)
  | cons a t ih =>
      intro acc q hq
      rw [pairLoopInner]
      rcases List.mem_cons.1 hq with hq | hq
      · by_cases h : acc.2.2 < sqDist p a
        · rw [if_pos h, hq]
          exact pairLoopInner_snd_le p t (p, a, sqDist p a)
        · rw [if_neg h, hq]
          exact le_trans (le_of_not_lt h) (pairLoopInner_snd_le p t acc)
      · exact ih _ q hq

theorem pairLoopInner_cases (p : ℤ × ℤ) :
    ∀ (l : List (ℤ × ℤ)) (acc : (ℤ × ℤ) × (ℤ × ℤ) × ℤ),
      pairLoopInner p l acc = acc ∨
      ((pairLoopInner p l acc).1 = p ∧ (pairLoopInner p l acc).2.1 ∈ l ∧
        (pairLoopInner p l acc).2.2 =
          sqDist (pairLoopInner p l acc).1 (pairLoopInner p l acc).2.1) := by
  intro l
  induction l with
  | nil => intro acc; exact Or.inl rfl
  | cons a t ih =>
      intro acc
      rw [pairLoopInner]
      by_cases h : acc.2.2 < sqDist p a
      · rw [if_pos h]
        rcases ih (p, a, sqDist p a) with hc | hc
        · right
          rw [hc]
          exact ⟨rfl, List.mem_cons_self a t, rfl⟩
        · exact Or.inr ⟨hc.1, List.mem_cons_of_mem a hc.2.1, hc.2.2⟩
      · rw [if_neg h]
        rcases ih acc with hc | hc
        · exact Or.inl hc
        · exact Or.inr ⟨hc.1, List.mem_cons_of_mem a hc.2.1, hc.2.2⟩

theorem pairLoop_snd_le :
    ∀ (l : List (ℤ × ℤ)) (acc : (ℤ × ℤ) × (ℤ × ℤ) × ℤ),
      acc.2.2 ≤ (pairLoop l acc).2.2 := by
  intro l
  induction l with
  | nil => intro acc; exact le_refl _
  | cons p t ih =>
      intro acc
      rw [pairLoop]
      exact le_trans (pairLoopInner_snd_le p t acc) (ih _)

theorem pairLoop_bound :
    ∀ (l : List (ℤ × ℤ)) (acc : (ℤ × ℤ) × (ℤ × ℤ) × ℤ), 0 ≤ acc.2.2 →
      ∀ a ∈ l, ∀ b ∈ l, sqDist a b ≤ (pairLoop l acc).2.2 := by
  intro l
  induction l with
  | nil => intro acc _ a ha; exact absurd ha (List.not_mem_nil a)
  | cons p t ih =>
      intro acc h0 a ha b hb
      rw [pairLoop]
      have h0x : 0 ≤ (pairLoopInner p t acc).2.2 :=
        le_trans h0 (pairLoopInner_snd_le p t acc)
      rcases List.mem_cons.1 ha with ha | ha <;>
        rcases List.mem_cons.1 hb with hb | hb
      · rw [ha, hb, sqDist_self]
        exact le_trans h0x (pairLoop_snd_le t _)
      · rw [ha]
        exact le_trans (pairLoopInner_bound p t acc b hb) (pairLoop_snd_le t _)
      · rw [hb, sqDist_comm]
        exact le_trans (pairLoopInner_bound p t acc a ha) (pairLoop_snd_le t _)
      · exact ih _ h0x a ha b hb

theorem pairLoop_cases :
    ∀ (l : List (ℤ × ℤ)) (acc : (ℤ × ℤ) × (ℤ × ℤ) × ℤ),
      pairLoop l acc = acc ∨
      ((pairLoop l acc).1 ∈ l ∧ (pairLoop l acc).2.1 ∈ l ∧
        (pairLoop l acc).2.2 =
          sqDist (pairLoop l acc).1 (pairLoop l acc).2.1) := by
  intro l
  induction l with
  | nil => intro acc; exact Or.inl rfl
  | cons p t ih =>
      intro acc
      rw [pairLoop]
      rcases ih (pairLoopInner p t acc) with hc | hc
      · rw [hc]
        rcases pairLoopInner_cases p t acc with hi | hi
        · exact Or.inl hi
        · refine Or.inr ⟨?_, List.mem_cons_of_mem p hi.2.1, hi.2.2⟩
          rw [hi.1]
          exact List.mem_cons_self p t
      · exact Or.inr ⟨List.mem_cons_of_mem p hc.1,
          List.mem_cons_of_mem p hc.2.1, hc.2.2⟩

theorem dist_toE (u v : ℤ × ℤ) :
    dist (toE u) (toE v) = Real.sqrt ((sqDist u v : ℤ) : ℝ) := by
  rw [EuclideanSpace.dist_eq]
  congr 1
  rw [Fin.sum_univ_two]
  unfold toE sqDist
  rw [WithLp.equiv_symm_pi_apply, WithLp.equiv_symm_pi_apply,
    WithLp.equiv_symm_pi_apply, WithLp.equiv_symm_pi_apply]
  simp only [Matrix.cons_val_zero, Matrix.cons_val_one, Matrix.head_cons,
    Real.dist_eq, sq_abs]
  push_cast
  ring

theorem hull_pairs_dominate (hp : List (ℤ × ℤ)) (p q : ℤ × ℤ)
    (hP : toE p ∈ convexHull ℝ (toE '' {z | z ∈ hp}))
    (hQ : toE q ∈ convexHull ℝ (toE '' {z | z ∈ hp})) :
    ∃ a ∈ hp, ∃ b ∈ hp, sqDist p q ≤ sqDist a b := by
  obtain ⟨x, hx, y, hy, hd⟩ := convexHull_exists_dist_ge2 hP hQ
  obtain ⟨a, ha, rfl⟩ := hx
  obtain ⟨b, hb, rfl⟩ := hy
  refine ⟨a, ha, b, hb, ?_⟩
  rw [dist_toE, dist_toE] at hd
  have hy0 : (0 : ℝ) ≤ ((sqDist a b : ℤ) : ℝ) := by
    exact_mod_cast sqDist_nonneg a b
  exact_mod_cast (Real.sqrt_le_sqrt_iff hy0).1 hd

/-- C3: for a boundary with at least 2 points, `find_line_endpoints`
returns a pair of boundary points whose (squared, hence Euclidean)
distance is maximal over all pairs of boundary points.  When the
boundary has more than 4 points, the exhaustive pairwise search runs
over `cv2.convexHull`'s output; the hypotheses state that output's
defining property — a sublist of the boundary whose convex hull
contains every boundary point — and the conclusion's quantification
over ALL boundary points shows the hull reduction does not change the
returned maximum distance.  (Square root is strictly monotone, so the
squared-distance maximum is the Euclidean one.) -/
theorem C3_farthest_pair_diameter (hull : List (ℤ × ℤ) → List (ℤ × ℤ))
    (points : List (ℤ × ℤ)) (h2 : 2 ≤ points.length)
    (hsub : 4 < points.length → ∀ z ∈ hull points, z ∈ points)
    (hcov : 4 < points.length → ∀ z ∈ points,
      toE z ∈ convexHull ℝ (toE '' {w | w ∈ hull points})) :
    (findLineEndpoints hull points).1 ∈ points ∧
    (findLineEndpoints hull points).2 ∈ points ∧
    ∀ p ∈ points, ∀ q ∈ points,
      sqDist p q ≤
        sqDist (findLineEndpoints hull points).1
          (findLineEndpoints hull points).2 := by
  rcases points with _ | ⟨p0, _ | ⟨p1, rest⟩⟩
  · simp at h2
  · simp at h2
  · set L : List (ℤ × ℤ) := p0 :: p1 :: rest with hLdef
    set lastp := L.getLast (List.cons_ne_nil p0 (p1 :: rest)) with hlast
    set hp := if 4 < L.length then hull L else L with hhp
    set acc : (ℤ × ℤ) × (ℤ × ℤ) × ℤ := (p0, lastp, 0) with hacc
    have hr : findLineEndpoints hull L =
        ((pairLoop hp acc).1, (pairLoop hp acc).2.1) := rfl
    have hmem : ∀ z ∈ hp, z ∈ L := by
      rw [hhp]
      split_ifs with h4
      · exact hsub h4
      · intro z hz; exact hz
    have hdom : ∀ p ∈ L, ∀ q ∈ L,
        ∃ a ∈ hp, ∃ b ∈ hp, sqDist p q ≤ sqDist a b := by
      intro p hpmem q hqmem
      rw [hhp]
      split_ifs with h4
      · exact hull_pairs_dominate (hull L) p q (hcov h4 p hpmem)
          (hcov h4 q hqmem)
      · exact ⟨p, hpmem, q, hqmem, le_refl _⟩
    have hbound := pairLoop_bound hp acc (le_refl 0)
    have hcases := pairLoop_cases hp acc
    have hp0 : p0 ∈ L := List.mem_cons_self p0 (p1 :: rest)
    have hlmem : lastp ∈ L := by
      rw [hlast]
      exact List.getLast_mem _
    rw [hr]
    refine ⟨?_, ?_, ?_⟩
    · rcases hcases with hc | hc
      · rw [hc]; exact hp0
      · exact hmem _ hc.1
    · rcases hcases with hc | hc
      · rw [hc]; exact hlmem
      · exact hmem _ hc.2.1
    · intro p hpm q hqm
      obtain ⟨a, haa, b, hbb, hab⟩ := hdom p hpm q hqm
      have h1 : sqDist p q ≤ (pairLoop hp acc).2.2 :=
        le_trans hab (hbound a haa b hbb)
      rcases hcases with hc | hc
      · have h0 : (pairLoop hp acc).2.2 = (0 : ℤ) := by rw [hc]
        rw [h0] at h1
        exact le_trans h1 (sqDist_nonneg _ _)
      · dsimp only
        rw [← hc.2.2]
        exact h1

theorem toE_mem_segment (k : ℤ) (h0 : 0 ≤ k) (h4 : k ≤ 4) :
    toE (k, 0) ∈ segment ℝ (toE (0, 0)) (toE (4, 0)) := by
  refine ⟨1 - (k : ℝ) / 4, (k : ℝ) / 4, ?_, ?_, by ring, ?_⟩
  · have hk : (k : ℝ) ≤ 4 := by exact_mod_cast h4
    linarith
  · have hk : (0 : ℝ) ≤ (k : ℝ) := by exact_mod_cast h0
    linarith
  · refine funext fun i => ?_
    fin_cases i <;>
      simp [toE, WithLp.equiv_symm_pi_apply, PiLp.add_apply, PiLp.smul_apply,
        smul_eq_mul]

theorem pts5_cov : ∀ z ∈ pts5,
    toE z ∈ convexHull ℝ (toE '' {w | w ∈ hull5 pts5}) := by
  have hset : (toE '' {w | w ∈ hull5 pts5}) =
      {toE ((0 : ℤ), (0 : ℤ)), toE ((4 : ℤ), (0 : ℤ))} := by
    have hw : {w | w ∈ hull5 pts5} =
        ({((0 : ℤ), (0 : ℤ)), ((4 : ℤ), (0 : ℤ))} : Set (ℤ × ℤ)) := by
      ext w
      simp [hull5]
    rw [hw, Set.image_insert_eq, Set.image_singleton]
  rw [hset, convexHull_pair]
  intro z hz
  fin_cases hz
  · exact toE_mem_segment 0 (by decide) (by decide)
  · exact toE_mem_segment 1 (by decide) (by decide)
  · exact toE_mem_segment 2 (by decide) (by decide)
  · exact toE_mem_segment 3 (by decide) (by decide)
  · exact toE_mem_segment 4 (by decide) (by decide)

/-- Witness for C3 at the five collinear points `pts5` with the hull
function `hull5`: the extreme pair's squared distance bounds the
returned pair's. -/
theorem C3_farthest_pair_diameter_witness :
    sqDist ((0 : ℤ), (0 : ℤ)) ((4 : ℤ), (0 : ℤ)) ≤
      sqDist (findLineEndpoints hull5 pts5).1
        (findLineEndpoints hull5 pts5).2 :=
  (C3_farthest_pair_diameter hull5 pts5 (by decide) (by decide)
    (fun _ => pts5_cov)).2.2 (0, 0) (by decide) (4, 0) (by decide)
